import Mathlib

/-!
Verification development for the `papaya` concurrent hash set facade
(`src/set.rs`).  The repository's visible source is the typed set facade
`HashSet` / `HashSetRef`; the underlying table `raw::HashMap` is modelled
from the specification's component contract (probe/find, insert with a
`replace` flag returning `Inserted`/`Replaced`/`Error`, remove, length,
iteration, reserve, clear, retain).  The facade definitions below are
translated line by line from `src/set.rs`; the raw layer is a sequential
model of the spec's single-guard (no concurrent mutation) semantics.
-/

namespace Papaya

/-- Result of a raw table insert, mirroring `raw::InsertResult`:
`Inserted` (key absent, new entry published), `Replaced old` (key present,
entry replaced, old value returned), `Error` (non-replacing insert found an
existing entry and mutated nothing). -/
inductive InsertResult (V : Type) where
  | Inserted (new : V)
  | Replaced (old : V)
  | Error (current : V) (notInserted : V)
  deriving DecidableEq, Repr

/-- Modelled from the spec: the core hash table (`raw::HashMap`) under a
single guard, with no concurrent mutation.  The logical content is the
sequence of live entries (key, value); `capacity` records the reserved
capacity requested through construction and `reserve`. -/
structure RawHashMap (K V : Type) where
  entries : List (K × V)
  capacity : Nat
  deriving DecidableEq, Repr

/-- Replaces the first entry whose key satisfies `p` with `new`, leaving
every other entry untouched (publishing a new Entry record in place of the
retired one, per the spec's entry-replacement protocol). -/
def replaceFirst {K V : Type} (p : K → Bool) (new : K × V) :
    List (K × V) → List (K × V)
  | [] => []
  | e :: rest => if p e.1 then new :: rest else e :: replaceFirst p new rest

/-- Removes the first entry whose key satisfies `p` (CAS to tombstone),
leaving every other entry untouched. -/
def removeFirst {K V : Type} (p : K → Bool) :
    List (K × V) → List (K × V)
  | [] => []
  | e :: rest => if p e.1 then rest else e :: removeFirst p rest

namespace RawHashMap

variable {K V : Type}

/-- Modelled from the spec: `raw::HashMap::new(capacity, hasher, resize_mode)`
creates an empty table with the requested capacity estimate. -/
def new (capacity : Nat) : RawHashMap K V :=
  { entries := [], capacity := capacity }

/-- Modelled from the spec: `find(hash, key)` returns the entry whose key is
equivalent to the probe key, if any.  `beq q k` is the `Q: Equivalent<K>`
relation of the probe type. -/
def get (m : RawHashMap K V) (beq : K → K → Bool) (q : K) : Option (K × V) :=
  m.entries.find? (fun e => beq q e.1)

/-- Modelled from the spec: `insert(hash, key, value, replace)`.  If no
equivalent key is present the new entry is published and `Inserted` is
returned.  If an equivalent key is present and `replace` is set, a new Entry
record is published in place of the old one and `Replaced old` is returned;
with `replace` unset nothing is mutated and the `Error` failure carries the
current value. -/
def insert (m : RawHashMap K V) (beq : K → K → Bool) (k : K) (v : V)
    (replace : Bool) : RawHashMap K V × InsertResult V :=
  match m.entries.find? (fun e => beq k e.1) with
  | none =>
      ({ m with entries := m.entries ++ [(k, v)] }, .Inserted v)
  | some e =>
      if replace then
        ({ m with entries := replaceFirst (fun k0 => beq k k0) (k, v) m.entries },
          .Replaced e.2)
      else
        (m, .Error e.2 v)

/-- Modelled from the spec: `remove(hash, key)` removes the entry whose key
is equivalent to the probe key (CAS to tombstone) and returns it; an absent
key is a benign non-event returning `none`. -/
def remove (m : RawHashMap K V) (beq : K → K → Bool) (q : K) :
    RawHashMap K V × Option (K × V) :=
  match m.entries.find? (fun e => beq q e.1) with
  | none => (m, none)
  | some e => ({ m with entries := removeFirst (fun k0 => beq q k0) m.entries }, some e)

/-- Modelled from the spec: `len()` is the number of live entries. -/
def len (m : RawHashMap K V) : Nat :=
  m.entries.length

/-- Modelled from the spec: iteration yields every live entry once. -/
def iter (m : RawHashMap K V) : List (K × V) :=
  m.entries

/-- Modelled from the spec: `reserve(additional)` grows the capacity
estimate so the table can hold `len + additional` entries. -/
def reserve (m : RawHashMap K V) (additional : Nat) : RawHashMap K V :=
  { m with capacity := max m.capacity (m.entries.length + additional) }

/-- Modelled from the spec: `clear()` removes all entries. -/
def clear (m : RawHashMap K V) : RawHashMap K V :=
  { m with entries := [] }

/-- Modelled from the spec: `retain(f)` keeps exactly the entries satisfying
the predicate. -/
def retain (m : RawHashMap K V) (f : K → V → Bool) : RawHashMap K V :=
  { m with entries := m.entries.filter (fun e => f e.1 e.2) }

/-- Well-formedness of a table state reachable through the API: no two live
entries have equivalent keys (a key occupies at most one slot). -/
def WF (m : RawHashMap K V) (beq : K → K → Bool) : Prop :=
  m.entries.Pairwise (fun a b => beq a.1 b.1 = false)

instance (m : RawHashMap K V) (beq : K → K → Bool) : Decidable (m.WF beq) :=
  inferInstanceAs (Decidable (m.entries.Pairwise _))

end RawHashMap

/-- The probe-key relation is the key type's own equality (`Q = K`), which
the `Hash + Eq` contract requires to be an equivalence. -/
structure IsEquivalence {K : Type} (beq : K → K → Bool) : Prop where
  refl : ∀ a, beq a a = true
  symm : ∀ a b, beq a b = true → beq b a = true
  trans : ∀ a b c, beq a b = true → beq b c = true → beq a c = true

/-- The set facade: `HashSet<K, S>` wraps a `raw::HashMap<K, (), S>`
(`src/set.rs` line 16). -/
structure HashSet (K : Type) where
  raw : RawHashMap K Unit
  deriving DecidableEq, Repr

namespace HashSet

variable {K : Type}

/-- With-capacity constructor (`HashSet::with_capacity_and_hasher`,
`src/set.rs` line 244): builds the raw table with the given capacity. -/
def with_capacity (capacity : Nat) : HashSet K :=
  { raw := RawHashMap.new capacity }

/-- The default, empty set (`HashSet::new` / `Default`, capacity 0). -/
def new : HashSet K :=
  with_capacity 0

/-- Number of entries (`HashSet::len`, `src/set.rs` line 318). -/
def len (s : HashSet K) : Nat :=
  s.raw.len

/-- Emptiness check (`HashSet::is_empty`, `src/set.rs` line 335). -/
def is_empty (s : HashSet K) : Bool :=
  s.len == 0

/-- Lookup (`HashSet::get`, `src/set.rs` lines 387-395). -/
def get (s : HashSet K) (beq : K → K → Bool) (q : K) : Option K :=
  match s.raw.get beq q with
  | some (k, _) => some k
  | none => none

/-- Membership (`HashSet::contains`, `src/set.rs` lines 360-365). -/
def contains (s : HashSet K) (beq : K → K → Bool) (q : K) : Bool :=
  (s.get beq q).isSome

/-- Insert (`HashSet::insert`, `src/set.rs` lines 421-427): calls
`raw.insert(key, (), true)` and maps `Inserted` to `true`, `Replaced` to
`false`; the `Error` arm is `unreachable!()` in the source. -/
def insert (s : HashSet K) (beq : K → K → Bool) (k : K) : HashSet K × Bool :=
  match s.raw.insert beq k () true with
  | (r, .Inserted _) => ({ raw := r }, true)
  | (r, .Replaced _) => ({ raw := r }, false)
  | (_, .Error _ _) => (s, false)

/-- Whether the `unreachable!()` arm of `HashSet::insert` would run: the
raw insert with `replace = true` returned `Error`. -/
def insertHitsUnreachable (s : HashSet K) (beq : K → K → Bool) (k : K) : Bool :=
  match s.raw.insert beq k () true with
  | (_, .Error _ _) => true
  | _ => false

/-- Remove (`HashSet::remove`, `src/set.rs` lines 447-455): maps the raw
result to `true` (entry removed) or `false` (absent key). -/
def remove (s : HashSet K) (beq : K → K → Bool) (q : K) : HashSet K × Bool :=
  match s.raw.remove beq q with
  | (r, some _) => ({ raw := r }, true)
  | (r, none) => ({ raw := r }, false)

/-- Reserve (`HashSet::reserve`, `src/set.rs` line 478). -/
def reserve (s : HashSet K) (additional : Nat) : HashSet K :=
  { raw := s.raw.reserve additional }

/-- Clear (`HashSet::clear`, `src/set.rs` line 500). -/
def clear (s : HashSet K) : HashSet K :=
  { raw := s.raw.clear }

/-- Retain (`HashSet::retain`, `src/set.rs` lines 528-533): calls
`raw.retain(|k, _| f(k))`. -/
def retain (s : HashSet K) (f : K → Bool) : HashSet K :=
  { raw := s.raw.retain (fun k _ => f k) }

/-- Iteration (`HashSet::iter`, `src/set.rs` lines 556-560, and
`Iter::next`, lines 854-856): yields the key of every raw entry. -/
def iter (s : HashSet K) : List K :=
  s.raw.iter.map Prod.fst

/-- Structural equality (`PartialEq for HashSet`, `src/set.rs` lines
563-576): `false` when the lengths differ, otherwise every key iterated
from `self` must be found in `other`. -/
def eq (s t : HashSet K) (beq : K → K → Bool) : Bool :=
  if s.len != t.len then false
  else (s.iter).all (fun key => (t.get beq key).isSome)

/-- Well-formedness of the facade state. -/
def WF (s : HashSet K) (beq : K → K → Bool) : Prop :=
  s.raw.WF beq

instance (s : HashSet K) (beq : K → K → Bool) : Decidable (s.WF beq) :=
  inferInstanceAs (Decidable (s.raw.WF beq))

/-- Inserts every key of a list in order (the `for key in iter` loops of
`extend`, `from_iter` and `clone`). -/
def insertAll (s : HashSet K) (beq : K → K → Bool) (keys : List K) : HashSet K :=
  keys.foldl (fun acc k => (acc.insert beq k).1) s

end HashSet

/-- A fused Rust iterator for the bulk operations: the remaining items
together with the current lower size hint (`Iterator::size_hint().0`).
`next` yields the head and decrements the hint. -/
structure SizedIter (K : Type) where
  items : List K
  hint : Nat
  deriving DecidableEq, Repr

namespace HashSet

variable {K : Type}

/-- Bulk extension (`Extend<K> for &HashSet`, `src/set.rs` lines 600-618):
reserve the whole lower size hint if the set is empty, otherwise half the
hint rounded up, then insert each element in iteration order. -/
def extend (s : HashSet K) (beq : K → K → Bool) (it : SizedIter K) : HashSet K :=
  let r := if s.is_empty then it.hint else (it.hint + 1) / 2
  (s.reserve r).insertAll beq it.items

/-- Bulk construction (`FromIterator<K> for HashSet`, `src/set.rs` lines
645-668): take the first element; if the iterator was empty return the
default set, otherwise pre-size a fresh set to the remaining lower size
hint `saturating_add(1)` and insert the first and every remaining
element. -/
def from_iter (beq : K → K → Bool) (it : SizedIter K) : HashSet K :=
  match it.items with
  | [] => new
  | key :: rest =>
      let lower := it.hint - 1
      let s := with_capacity (lower + 1)
      ((s.insert beq key).1).insertAll beq rest

/-- Clone (`Clone for HashSet`, `src/set.rs` lines 676-691): build a fresh
set with capacity `self.len()` and insert a clone of every key of `self`;
`cloneK` models `K::clone`. -/
def clone (s : HashSet K) (beq : K → K → Bool) (cloneK : K → K) : HashSet K :=
  (with_capacity s.len).insertAll beq (s.iter.map cloneK)

end HashSet

/-- A pinned reference to a set (`HashSetRef`, `src/set.rs` lines 697-699):
wraps the set it was created from. -/
structure HashSetRef (K : Type) where
  set : HashSet K
  deriving DecidableEq, Repr

namespace HashSet

variable {K : Type}

/-- Pin (`HashSet::pin`, `src/set.rs` lines 255-257): wraps `self`. -/
def pin (s : HashSet K) : HashSetRef K :=
  { set := s }

/-- Owned pin (`HashSet::pin_owned`, `src/set.rs` lines 268-270): wraps
`self` exactly like `pin`. -/
def pin_owned (s : HashSet K) : HashSetRef K :=
  { set := s }

end HashSet

namespace HashSetRef

variable {K : Type}

/-- Delegation: `HashSetRef::len` (`src/set.rs` lines 716-718): `self.set.raw.len()`. -/
def len (r : HashSetRef K) : Nat :=
  r.set.raw.len

/-- Delegation: `HashSetRef::is_empty` (`src/set.rs` lines 724-726). -/
def is_empty (r : HashSetRef K) : Bool :=
  r.len == 0

/-- Delegation: `HashSetRef::get` (`src/set.rs` lines 743-751). -/
def get (r : HashSetRef K) (beq : K → K → Bool) (q : K) : Option K :=
  match r.set.raw.get beq q with
  | some (k, _) => some k
  | none => none

/-- Delegation: `HashSetRef::contains` (`src/set.rs` lines 732-737). -/
def contains (r : HashSetRef K) (beq : K → K → Bool) (q : K) : Bool :=
  (r.get beq q).isSome

/-- Delegation: `HashSetRef::insert` (`src/set.rs` lines 757-763): identical body to
`HashSet::insert`, with the same `unreachable!()` arm. -/
def insert (r : HashSetRef K) (beq : K → K → Bool) (k : K) : HashSetRef K × Bool :=
  match r.set.raw.insert beq k () true with
  | (m, .Inserted _) => ({ set := { raw := m } }, true)
  | (m, .Replaced _) => ({ set := { raw := m } }, false)
  | (_, .Error _ _) => (r, false)

/-- Delegation: `HashSetRef::remove` (`src/set.rs` lines 770-778). -/
def remove (r : HashSetRef K) (beq : K → K → Bool) (q : K) : HashSetRef K × Bool :=
  match r.set.raw.remove beq q with
  | (m, some _) => ({ set := { raw := m } }, true)
  | (m, none) => ({ set := { raw := m } }, false)

/-- Delegation: `HashSetRef::clear` (`src/set.rs` lines 784-786). -/
def clear (r : HashSetRef K) : HashSetRef K :=
  { set := { raw := r.set.raw.clear } }

/-- Delegation: `HashSetRef::retain` (`src/set.rs` lines 792-797). -/
def retain (r : HashSetRef K) (f : K → Bool) : HashSetRef K :=
  { set := { raw := r.set.raw.retain (fun k _ => f k) } }

/-- Delegation: `HashSetRef::reserve` (`src/set.rs` lines 804-806). -/
def reserve (r : HashSetRef K) (additional : Nat) : HashSetRef K :=
  { set := { raw := r.set.raw.reserve additional } }

/-- Delegation: `HashSetRef::iter` (`src/set.rs` lines 813-817). -/
def iter (r : HashSetRef K) : List K :=
  r.set.raw.iter.map Prod.fst

end HashSetRef

/-- Whether an insert result is the `Error` variant. -/
def InsertResult.isError {V : Type} : InsertResult V → Bool
  | .Error _ _ => true
  | _ => false

/-- Whether the `unreachable!()` arm of `HashSetRef::insert` would run. -/
def HashSetRef.insertHitsUnreachable {K : Type} (r : HashSetRef K)
    (beq : K → K → Bool) (k : K) : Bool :=
  match r.set.raw.insert beq k () true with
  | (_, .Error _ _) => true
  | _ => false

/-- Boolean equality on `Nat`: the witness instantiation of the `Hash + Eq`
key contract. -/
def natBeq : Nat → Nat → Bool := fun a b => a == b

/-- A sample well-formed three-element set used by the witnesses. -/
def s135 : HashSet Nat :=
  { raw := { entries := [(1, ()), (3, ()), (5, ())], capacity := 8 } }

/-- Keys carrying an extra tag that equality ignores: two keys can be `==`
without being identical (first components compared, second ignored). -/
def pairBeq : Nat × Nat → Nat × Nat → Bool := fun a b => a.1 == b.1

/-- A one-element set over tagged keys, holding the key instance `(1, 0)`. -/
def sTagged : HashSet (Nat × Nat) :=
  { raw := { entries := [((1, 0), ())], capacity := 2 } }

/-- A sample sized iterator used by the bulk-operation witnesses. -/
def it23 : SizedIter Nat :=
  { items := [2, 3], hint := 5 }

/-- Two sample sets with the same keys in different order. -/
def sA : HashSet Nat :=
  { raw := { entries := [(1, ()), (3, ())], capacity := 4 } }

/-- See `sA`. -/
def sB : HashSet Nat :=
  { raw := { entries := [(3, ()), (1, ())], capacity := 2 } }

/-- Proof infrastructure: choose the first element of `kt` equivalent to
`a`, defaulting to `a` itself. -/
def pick {K : Type} (beq : K → K → Bool) (kt : List K) (a : K) : K :=
  match kt.find? (fun b => beq a b) with
  | some b => b
  | none => a

/-! ### List-level helper lemmas -/

theorem find?_decomp {α : Type} {q : α → Bool} {l : List α} {a : α}
    (h : l.find? q = some a) :
    ∃ pre post, l = pre ++ a :: post ∧ (∀ x ∈ pre, q x = false) := by
  induction l with
  | nil => simp at h
  | cons x xs ih =>
    rw [List.find?_cons] at h
    cases hx : q x with
    | true =>
      simp [hx] at h
      exact ⟨[], xs, by simp [h], by simp⟩
    | false =>
      simp [hx] at h
      obtain ⟨pre, post, rfl, hpre⟩ := ih h
      refine ⟨x :: pre, post, by simp, ?_⟩
      intro y hy
      rcases List.mem_cons.mp hy with h1 | h2
      · exact h1 ▸ hx
      · exact hpre y h2

theorem replaceFirst_append {K V : Type} {p : K → Bool} {new e : K × V}
    {pre post : List (K × V)} (hpre : ∀ x ∈ pre, p x.1 = false)
    (he : p e.1 = true) :
    replaceFirst p new (pre ++ e :: post) = pre ++ new :: post := by
  induction pre with
  | nil => simp [replaceFirst, he]
  | cons x xs ih =>
    have hx : p x.1 = false := hpre x (by simp)
    simp only [List.cons_append, replaceFirst, hx, if_false, Bool.false_eq_true]
    exact congrArg (x :: ·) (ih (fun y hy => hpre y (by simp [hy])))

theorem removeFirst_append {K V : Type} {p : K → Bool} {e : K × V}
    {pre post : List (K × V)} (hpre : ∀ x ∈ pre, p x.1 = false)
    (he : p e.1 = true) :
    removeFirst p (pre ++ e :: post) = pre ++ post := by
  induction pre with
  | nil => simp [removeFirst, he]
  | cons x xs ih =>
    have hx : p x.1 = false := hpre x (by simp)
    simp only [List.cons_append, removeFirst, hx, if_false, Bool.false_eq_true]
    exact congrArg (x :: ·) (ih (fun y hy => hpre y (by simp [hy])))

theorem length_replaceFirst {K V : Type} (p : K → Bool) (new : K × V)
    (l : List (K × V)) : (replaceFirst p new l).length = l.length := by
  induction l with
  | nil => rfl
  | cons x xs ih =>
    by_cases hx : p x.1 = true
    · simp [replaceFirst, hx]
    · simp [replaceFirst, hx, ih]

theorem mem_replaceFirst {K V : Type} {p : K → Bool} {new : K × V}
    {l : List (K × V)} {x : K × V} (hx : x ∈ replaceFirst p new l) :
    x ∈ l ∨ x = new := by
  induction l with
  | nil => simp [replaceFirst] at hx
  | cons y ys ih =>
    by_cases hy : p y.1 = true
    · simp only [replaceFirst, hy, if_true] at hx
      rcases List.mem_cons.mp hx with h1 | h2
      · exact Or.inr h1
      · exact Or.inl (List.mem_cons_of_mem _ h2)
    · simp only [replaceFirst, hy, if_false] at hx
      rcases List.mem_cons.mp hx with h1 | h2
      · exact Or.inl (h1 ▸ List.mem_cons_self _ _)
      · rcases ih h2 with h3 | h3
        · exact Or.inl (List.mem_cons_of_mem _ h3)
        · exact Or.inr h3

/-! ### Characterizations of the facade operations -/

namespace HashSet

variable {K : Type} (beq : K → K → Bool)

/-- The facade lookup is the raw lookup with the value projected away. -/
theorem get_eq_map (s : HashSet K) (q : K) :
    s.get beq q = (s.raw.get beq q).map Prod.fst := by
  unfold get
  rcases s.raw.get beq q with _ | ⟨k, v⟩ <;> rfl

/-- Membership unfolded to the entry list. -/
theorem contains_iff (s : HashSet K) (q : K) :
    s.contains beq q = true ↔ ∃ x ∈ s.raw.entries, beq q x.1 = true := by
  rw [contains, get_eq_map]
  show ((s.raw.get beq q).map Prod.fst).isSome = true ↔ _
  rw [show (s.raw.get beq q).map Prod.fst = Prod.fst <$> s.raw.get beq q from rfl,
    Option.isSome_map]
  exact List.find?_isSome

theorem contains_eq_false_iff (s : HashSet K) (q : K) :
    s.contains beq q = false ↔ ∀ x ∈ s.raw.entries, beq q x.1 = false := by
  have h := contains_iff beq s q
  constructor
  · intro hc x hx
    cases hb : beq q x.1
    · rfl
    · exact absurd (h.mpr ⟨x, hx, hb⟩) (by simp [hc])
  · intro hall
    cases hc : s.contains beq q
    · rfl
    · obtain ⟨x, hx, hb⟩ := h.mp hc
      exact absurd hb (by simp [hall x hx])

/-- An `insert` on an absent key appends the new entry and returns `true`. -/
theorem insert_absent {s : HashSet K} {k : K}
    (h : s.contains beq k = false) :
    s.insert beq k =
      ({ raw := { entries := s.raw.entries ++ [(k, ())],
                  capacity := s.raw.capacity } }, true) := by
  have hf : s.raw.entries.find? (fun e => beq k e.1) = none := by
    rw [List.find?_eq_none]
    intro x hx
    simp [(contains_eq_false_iff beq s k).mp h x hx]
  simp [insert, RawHashMap.insert, hf]

/-- An `insert` on a present key replaces the first matching entry with the
new entry (new key instance) and returns `false`. -/
theorem insert_present {s : HashSet K} {k : K} {e : K × Unit}
    (h : s.raw.entries.find? (fun x => beq k x.1) = some e) :
    s.insert beq k =
      ({ raw := { entries := replaceFirst (fun k0 => beq k k0) (k, ())
                    s.raw.entries,
                  capacity := s.raw.capacity } }, false) := by
  simp [insert, RawHashMap.insert, h]

/-- The boolean returned by `insert` is the negated prior membership. -/
theorem insert_snd (s : HashSet K) (k : K) :
    (s.insert beq k).2 = !s.contains beq k := by
  rcases h : s.raw.entries.find? (fun x => beq k x.1) with _ | e
  · have hc : s.contains beq k = false := by
      rw [contains_eq_false_iff]
      intro x hx
      rw [List.find?_eq_none] at h
      simpa using h x hx
    rw [hc]
    simp [insert, RawHashMap.insert, h]
  · have hc : s.contains beq k = true := by
      rw [contains_iff]
      exact ⟨e, List.mem_of_find?_eq_some h, by simpa using List.find?_some h⟩
    rw [hc]
    simp [insert, RawHashMap.insert, h]

/-- After an insert, looking the key up returns the inserted key. -/
theorem get_insert_self {s : HashSet K} {k : K}
    (hrefl : beq k k = true) :
    ((s.insert beq k).1).get beq k = some k := by
  rcases h : s.raw.entries.find? (fun x => beq k x.1) with _ | e
  · have hc : s.contains beq k = false := by
      rw [contains_eq_false_iff]
      intro x hx
      rw [List.find?_eq_none] at h
      simpa using h x hx
    rw [insert_absent beq hc, get_eq_map]
    simp [RawHashMap.get, List.find?_append, h, hrefl]
  · obtain ⟨pre, post, hdec, hpre⟩ := find?_decomp h
    rw [insert_present beq h, get_eq_map]
    simp only [RawHashMap.get, hdec]
    rw [replaceFirst_append (by intro x hx; simpa using hpre x hx)
      (by simpa using List.find?_some h)]
    rw [List.find?_append]
    have hnone : pre.find? (fun e => beq k e.1) = none := by
      rw [List.find?_eq_none]
      intro x hx
      simpa using hpre x hx
    simp [hnone, List.find?_cons, hrefl]

/-- Applying `removeFirst` yields a sublist. -/
theorem removeFirst_sublist {K V : Type} (p : K → Bool) (l : List (K × V)) :
    (removeFirst p l).Sublist l := by
  induction l with
  | nil => simp [removeFirst]
  | cons x xs ih =>
    by_cases hx : p x.1 = true
    · simp only [removeFirst, hx, if_true]
      exact (List.sublist_cons_self x xs)
    · simp only [removeFirst, hx, if_false]
      exact ih.cons₂ x

/-- After a remove, looking the key up returns `none` (on a well-formed
state, with the key relation an equivalence). -/
theorem get_remove_self {s : HashSet K} {q : K}
    (hequiv : IsEquivalence beq) (hwf : s.WF beq) :
    ((s.remove beq q).1).get beq q = none := by
  rcases h : s.raw.entries.find? (fun x => beq q x.1) with _ | e
  · rw [remove, RawHashMap.remove]
    rw [h]
    rw [get_eq_map]
    simp [RawHashMap.get, h]
  · obtain ⟨pre, post, hdec, hpre⟩ := find?_decomp h
    have hqk : beq q e.1 = true := by simpa using List.find?_some h
    have hwf2 : s.raw.entries.Pairwise (fun a b => beq a.1 b.1 = false) := hwf
    rw [hdec] at hwf2
    have hepost : ∀ b ∈ post, beq e.1 b.1 = false := by
      have h2 := (List.pairwise_append.mp hwf2).2.1
      exact fun b hb => (List.pairwise_cons.mp h2).1 b hb
    have hnone : (pre ++ post).find? (fun x => beq q x.1) = none := by
      rw [List.find?_eq_none]
      intro x hx
      simp only [Bool.not_eq_true]
      rcases List.mem_append.mp hx with hx1 | hx2
      · simp [hpre x hx1]
      · cases hqx : beq q x.1
        · rfl
        · have heq : beq e.1 q = true := hequiv.symm q e.1 hqk
          have hex : beq e.1 x.1 = true := hequiv.trans e.1 q x.1 heq hqx
          rw [hepost x hx2] at hex
          cases hex
    rw [remove, RawHashMap.remove, h]
    rw [get_eq_map]
    simp only [RawHashMap.get]
    rw [hdec, removeFirst_append (by intro x hx; simpa using hpre x hx) hqk]
    rw [hnone]
    rfl

/-- Removing an absent key leaves the set unchanged and returns `false`. -/
theorem remove_absent {s : HashSet K} {q : K}
    (h : s.contains beq q = false) :
    s.remove beq q = (s, false) := by
  have hf : s.raw.entries.find? (fun e => beq q e.1) = none := by
    rw [List.find?_eq_none]
    intro x hx
    simp [(contains_eq_false_iff beq s q).mp h x hx]
  simp [remove, RawHashMap.remove, hf]

/-- Looking up an absent key returns `none`. -/
theorem get_absent {s : HashSet K} {q : K}
    (h : s.contains beq q = false) :
    s.get beq q = none := by
  have hf : s.raw.entries.find? (fun e => beq q e.1) = none := by
    rw [List.find?_eq_none]
    intro x hx
    simp [(contains_eq_false_iff beq s q).mp h x hx]
  rw [get_eq_map]
  simp [RawHashMap.get, hf]

/-- Inserting preserves well-formedness. -/
theorem WF_insert {s : HashSet K} {k : K}
    (hequiv : IsEquivalence beq) (hwf : s.WF beq) :
    ((s.insert beq k).1).WF beq := by
  rcases h : s.raw.entries.find? (fun x => beq k x.1) with _ | e
  · have hc : s.contains beq k = false := by
      rw [contains_eq_false_iff]
      intro x hx
      rw [List.find?_eq_none] at h
      simpa using h x hx
    rw [insert_absent beq hc]
    show (s.raw.entries ++ [(k, ())]).Pairwise _
    rw [List.pairwise_append]
    refine ⟨hwf, by simp, ?_⟩
    intro a ha b hb
    rw [List.mem_singleton] at hb
    subst hb
    cases hak : beq a.1 k
    · rfl
    · have : beq k a.1 = true := hequiv.symm a.1 k hak
      rw [(contains_eq_false_iff beq s k).mp hc a ha] at this
      cases this
  · obtain ⟨pre, post, hdec, hpre⟩ := find?_decomp h
    have hke : beq k e.1 = true := by simpa using List.find?_some h
    rw [insert_present beq h]
    show (replaceFirst (fun k0 => beq k k0) (k, ()) s.raw.entries).Pairwise _
    rw [hdec, replaceFirst_append (by intro x hx; simpa using hpre x hx)
      (by simpa using hke)]
    have hwf2 : (pre ++ e :: post).Pairwise (fun a b => beq a.1 b.1 = false) := by
      have hwfe : s.raw.entries.Pairwise (fun a b => beq a.1 b.1 = false) := hwf
      rw [hdec] at hwfe
      exact hwfe
    rw [List.pairwise_append] at hwf2 ⊢
    obtain ⟨hp1, hp2, hp3⟩ := hwf2
    rw [List.pairwise_cons] at hp2 ⊢
    refine ⟨hp1, ⟨?_, hp2.2⟩, ?_⟩
    · intro b hb
      cases hkb : beq k b.1
      · rfl
      · have hek : beq e.1 k = true := hequiv.symm k e.1 hke
        have : beq e.1 b.1 = true := hequiv.trans e.1 k b.1 hek hkb
        rw [hp2.1 b hb] at this
        cases this
    · intro a ha b hb
      rcases List.mem_cons.mp hb with hb1 | hb2
      · subst hb1
        cases hak : beq a.1 k
        · rfl
        · have hka : beq k a.1 = true := hequiv.symm a.1 k hak
          rw [hpre a ha] at hka
          cases hka
      · exact hp3 a ha b (List.mem_cons_of_mem _ hb2)

/-- Removing preserves well-formedness. -/
theorem WF_remove {s : HashSet K} {q : K} (hwf : s.WF beq) :
    ((s.remove beq q).1).WF beq := by
  rcases h : s.raw.entries.find? (fun x => beq q x.1) with _ | e
  · rw [remove, RawHashMap.remove, h]
    exact hwf
  · rw [remove, RawHashMap.remove, h]
    exact List.Pairwise.sublist (removeFirst_sublist _ _) hwf

/-- The raw insert with `replace = true` never returns `Error`. -/
theorem raw_insert_replace_never_error {V : Type} (m : RawHashMap K V)
    (k : K) (v : V) :
    ∀ c ni, (m.insert beq k v true).2 ≠ InsertResult.Error c ni := by
  intro c ni
  rcases h : m.entries.find? (fun e => beq k e.1) with _ | e <;>
    simp [RawHashMap.insert, h]

/-- Entry list after inserting an absent key: the new entry is appended. -/
theorem insert_entries_absent {s : HashSet K} {k : K}
    (hc : s.contains beq k = false) :
    (s.insert beq k).1.raw.entries = s.raw.entries ++ [(k, ())] := by
  rw [insert_absent beq hc]

/-- Entry list after inserting a present key: the first equivalent entry is
replaced by the new one. -/
theorem insert_entries_present {s : HashSet K} {k : K} {e : K × Unit}
    (h : s.raw.entries.find? (fun x => beq k x.1) = some e) :
    (s.insert beq k).1.raw.entries =
      replaceFirst (fun k0 => beq k k0) (k, ()) s.raw.entries := by
  rw [insert_present beq h]

/-- Insert never changes the recorded capacity. -/
theorem insert_capacity (s : HashSet K) (k : K) :
    (s.insert beq k).1.raw.capacity = s.raw.capacity := by
  rcases h : s.raw.entries.find? (fun x => beq k x.1) with _ | e <;>
    simp [insert, RawHashMap.insert, h]

/-- Membership after an insert: the inserted key is present and every other
key's membership is untouched. -/
theorem contains_insert {s : HashSet K} {k : K}
    (hequiv : IsEquivalence beq) (q : K) :
    ((s.insert beq k).1).contains beq q = (s.contains beq q || beq q k) := by
  rw [Bool.eq_iff_iff, contains_iff, Bool.or_eq_true, contains_iff]
  rcases h : s.raw.entries.find? (fun x => beq k x.1) with _ | e
  · have hc : s.contains beq k = false := by
      rw [contains_eq_false_iff]
      intro x hx
      rw [List.find?_eq_none] at h
      simpa using h x hx
    rw [insert_entries_absent beq hc]
    constructor
    · rintro ⟨x, hx, hbx⟩
      rcases List.mem_append.mp hx with h1 | h2
      · exact Or.inl ⟨x, h1, hbx⟩
      · rw [List.mem_singleton] at h2
        subst h2
        exact Or.inr hbx
    · rintro (⟨x, hx, hbx⟩ | hqk)
      · exact ⟨x, List.mem_append.mpr (Or.inl hx), hbx⟩
      · exact ⟨(k, ()), List.mem_append.mpr (Or.inr (by simp)), hqk⟩
  · obtain ⟨pre, post, hdec, hpre⟩ := find?_decomp h
    have hke : beq k e.1 = true := by simpa using List.find?_some h
    rw [insert_entries_present beq h, hdec,
      replaceFirst_append (by intro x hx; simpa using hpre x hx)
        (by simpa using hke)]
    constructor
    · rintro ⟨x, hx, hbx⟩
      rcases List.mem_append.mp hx with h1 | h2
      · exact Or.inl ⟨x, List.mem_append.mpr (Or.inl h1), hbx⟩
      · rcases List.mem_cons.mp h2 with h3 | h4
        · subst h3
          exact Or.inr hbx
        · exact Or.inl ⟨x, List.mem_append.mpr (Or.inr (List.mem_cons_of_mem _ h4)), hbx⟩
    · rintro (⟨x, hx, hbx⟩ | hqk)
      · rcases List.mem_append.mp hx with h1 | h2
        · exact ⟨x, List.mem_append.mpr (Or.inl h1), hbx⟩
        · rcases List.mem_cons.mp h2 with h3 | h4
          · have hbe : beq q e.1 = true := by rw [← h3]; exact hbx
            have hek : beq e.1 k = true := hequiv.symm k e.1 hke
            have hqk2 : beq q k = true := hequiv.trans q e.1 k hbe hek
            exact ⟨(k, ()), List.mem_append.mpr (Or.inr (List.mem_cons_self _ _)), hqk2⟩
          · exact ⟨x, List.mem_append.mpr (Or.inr (List.mem_cons_of_mem _ h4)), hbx⟩
      · exact ⟨(k, ()), List.mem_append.mpr (Or.inr (List.mem_cons_self _ _)), hqk⟩

/-- The `unreachable!()` arm of `HashSet::insert` is dead code. -/
theorem insertHitsUnreachable_false (s : HashSet K) (k : K) :
    s.insertHitsUnreachable beq k = false := by
  rcases h : s.raw.entries.find? (fun e => beq k e.1) with _ | e <;>
    simp [insertHitsUnreachable, RawHashMap.insert, h]

/-- Length after an insert: grows by one exactly when the key was absent. -/
theorem len_insert (s : HashSet K) (k : K) :
    ((s.insert beq k).1).len =
      if s.contains beq k = true then s.len else s.len + 1 := by
  rcases h : s.raw.entries.find? (fun x => beq k x.1) with _ | e
  · have hc : s.contains beq k = false := by
      rw [contains_eq_false_iff]
      intro x hx
      rw [List.find?_eq_none] at h
      simpa using h x hx
    rw [hc]
    show (s.insert beq k).1.raw.entries.length = _
    rw [insert_entries_absent beq hc]
    simp [len, RawHashMap.len]
  · have hc : s.contains beq k = true := by
      rw [contains_iff]
      exact ⟨e, List.mem_of_find?_eq_some h, by simpa using List.find?_some h⟩
    rw [hc]
    show (s.insert beq k).1.raw.entries.length = _
    rw [insert_entries_present beq h]
    simp [len, RawHashMap.len, length_replaceFirst]

/-- Membership after a bulk insert. -/
theorem contains_insertAll (hequiv : IsEquivalence beq) (l : List K)
    (s : HashSet K) (q : K) :
    (s.insertAll beq l).contains beq q =
      (s.contains beq q || l.any (fun x => beq q x)) := by
  induction l generalizing s with
  | nil => simp [insertAll]
  | cons x xs ih =>
    show (((s.insert beq x).1).insertAll beq xs).contains beq q = _
    rw [ih, contains_insert beq hequiv]
    simp [Bool.or_assoc]

/-- Bulk inserts never touch the recorded capacity. -/
theorem insertAll_capacity (l : List K) (s : HashSet K) :
    (s.insertAll beq l).raw.capacity = s.raw.capacity := by
  induction l generalizing s with
  | nil => rfl
  | cons x xs ih =>
    show (((s.insert beq x).1).insertAll beq xs).raw.capacity = _
    rw [ih, insert_capacity]

/-- Bulk-inserting keys that are absent and pairwise distinct appends one
entry per key. -/
theorem insertAll_entries_fresh {l : List K} (s : HashSet K)
    (hfresh : ∀ x ∈ l, s.contains beq x = false)
    (hpair : l.Pairwise (fun a b => beq b a = false)) :
    (s.insertAll beq l).raw.entries =
      s.raw.entries ++ l.map (fun k => (k, ())) := by
  induction l generalizing s with
  | nil => simp [insertAll]
  | cons x xs ih =>
    have hx : s.contains beq x = false := hfresh x (by simp)
    have hxs : ∀ y ∈ xs, ((s.insert beq x).1).contains beq y = false := by
      intro y hy
      rw [contains_eq_false_iff]
      intro z hz
      rw [insert_entries_absent beq hx] at hz
      rcases List.mem_append.mp hz with h1 | h2
      · exact (contains_eq_false_iff beq s y).mp (hfresh y (by simp [hy])) z h1
      · rw [List.mem_singleton] at h2
        subst h2
        exact (List.pairwise_cons.mp hpair).1 y hy
    show (((s.insert beq x).1).insertAll beq xs).raw.entries = _
    rw [ih _ hxs (List.pairwise_cons.mp hpair).2, insert_entries_absent beq hx]
    simp

end HashSet

/-- The `unreachable!()` arm of `HashSetRef::insert` is dead code. -/
theorem HashSetRef.ref_insertHitsUnreachable_false {K : Type} (beq : K → K → Bool)
    (r : HashSetRef K) (k : K) :
    r.insertHitsUnreachable beq k = false := by
  rcases h : r.set.raw.entries.find? (fun e => beq k e.1) with _ | e <;>
    simp [HashSetRef.insertHitsUnreachable, RawHashMap.insert, h]

/-- Nat boolean equality is an equivalence. -/
theorem natBeq_equiv : IsEquivalence natBeq := by
  refine ⟨fun a => ?_, fun a b h => ?_, fun a b c h1 h2 => ?_⟩ <;>
    simp [natBeq] at * <;> omega

/-! ### The claims -/

/-- C1: for every set and key `k` (single guard, sequential semantics):
after `HashSet::insert(k)`, `get(k)` returns `some` of a key equal to `k`
(in fact the inserted instance itself); and after `remove(q)`, `get(q)`
returns `none`. -/
theorem insert_get_remove_round_trip {K : Type} (beq : K → K → Bool)
    (hequiv : IsEquivalence beq) (s : HashSet K) (k q : K)
    (hwf : s.WF beq) :
    (((s.insert beq k).1).get beq k = some k ∧ beq k k = true) ∧
    ((s.remove beq q).1).get beq q = none :=
  ⟨⟨HashSet.get_insert_self beq (hequiv.refl k), hequiv.refl k⟩,
   HashSet.get_remove_self beq hequiv hwf⟩

/-- Witness for C1 at a concrete set and keys. -/
theorem insert_get_remove_round_trip_witness :
    (((s135.insert natBeq 7).1).get natBeq 7 = some 7 ∧ natBeq 7 7 = true) ∧
    ((s135.remove natBeq 3).1).get natBeq 3 = none :=
  insert_get_remove_round_trip natBeq natBeq_equiv s135 7 3 (by decide)

/-- C2: `HashSet::insert(k)` returns `true` exactly when no key equal to
`k` was present before the call, and `false` exactly when one was. -/
theorem insert_true_iff_newly_inserted {K : Type} (beq : K → K → Bool)
    (s : HashSet K) (k : K) :
    ((s.insert beq k).2 = true ↔ s.contains beq k = false) ∧
    ((s.insert beq k).2 = false ↔ s.contains beq k = true) := by
  rw [HashSet.insert_snd]
  cases s.contains beq k <;> simp

/-- C3 counterexample: inserting key instance `(1, 1)` into the set holding
the equal-but-not-identical instance `(1, 0)` returns the already-present
result yet REPLACES the stored entry: `HashSet::insert` passes
`should_replace = true` to the raw insert, not `false`, so the previously
stored key instance does not survive. -/
theorem insert_present_replaces_stored_key :
    (sTagged.insert pairBeq (1, 1)).2 = false ∧
    sTagged.raw.entries = [((1, 0), ())] ∧
    (sTagged.insert pairBeq (1, 1)).1.raw.entries = [((1, 1), ())] := by
  decide

/-- C3 (amended): for every set containing a key equal to `k`, the facade's
`insert(k)` takes the replacing (`should_replace = true`) path of the raw
insert: it returns `false` (the already-present result) and swaps the single
matching entry for a new entry holding the new key instance, leaving every
other entry and the capacity unchanged. -/
theorem insert_present_replacing_path {K : Type} (beq : K → K → Bool)
    (s : HashSet K) (k : K) (e : K × Unit)
    (h : s.raw.entries.find? (fun x => beq k x.1) = some e) :
    (s.insert beq k).2 = false ∧
    ∃ pre post, s.raw.entries = pre ++ e :: post ∧
      (∀ x ∈ pre, beq k x.1 = false) ∧ beq k e.1 = true ∧
      (s.insert beq k).1.raw.entries = pre ++ (k, ()) :: post ∧
      (s.insert beq k).1.raw.capacity = s.raw.capacity := by
  obtain ⟨pre, post, hdec, hpre⟩ := find?_decomp h
  have hke : beq k e.1 = true := by simpa using List.find?_some h
  refine ⟨?_, pre, post, hdec, fun x hx => by simpa using hpre x hx, hke,
    ?_, HashSet.insert_capacity beq s k⟩
  · rw [HashSet.insert_present beq h]
  · rw [HashSet.insert_entries_present beq h, hdec,
      replaceFirst_append (fun x hx => by simpa using hpre x hx) hke]

/-- Witness for the amended C3 at a concrete set and key. -/
theorem insert_present_replacing_path_witness :
    (sTagged.insert pairBeq (1, 1)).2 = false ∧
    ∃ pre post, sTagged.raw.entries = pre ++ ((1, 0), ()) :: post ∧
      (∀ x ∈ pre, pairBeq (1, 1) x.1 = false) ∧
      pairBeq (1, 1) (1, 0) = true ∧
      (sTagged.insert pairBeq (1, 1)).1.raw.entries =
        pre ++ ((1, 1), ()) :: post ∧
      (sTagged.insert pairBeq (1, 1)).1.raw.capacity =
        sTagged.raw.capacity :=
  insert_present_replacing_path pairBeq sTagged (1, 1) ((1, 0), ()) (by decide)

/-- C4: removing, looking up or membership-testing an absent key and
inserting a present key are benign non-events: ordinary `false`/`none`
results, with neither insert reaching the `unreachable!()` arm. -/
theorem benign_non_events {K : Type} (beq : K → K → Bool) (s : HashSet K)
    (k kp : K) (habs : s.contains beq k = false)
    (hpres : s.contains beq kp = true) :
    s.remove beq k = (s, false) ∧
    s.get beq k = none ∧
    s.contains beq k = false ∧
    (s.insert beq kp).2 = false ∧
    s.insertHitsUnreachable beq k = false ∧
    s.insertHitsUnreachable beq kp = false := by
  refine ⟨HashSet.remove_absent beq habs, HashSet.get_absent beq habs, habs,
    ?_, HashSet.insertHitsUnreachable_false beq s k,
    HashSet.insertHitsUnreachable_false beq s kp⟩
  rw [HashSet.insert_snd, hpres]
  rfl

/-- Witness for C4 at a concrete set: key 2 is absent, key 3 present. -/
theorem benign_non_events_witness :
    s135.remove natBeq 2 = (s135, false) ∧
    s135.get natBeq 2 = none ∧
    s135.contains natBeq 2 = false ∧
    (s135.insert natBeq 3).2 = false ∧
    s135.insertHitsUnreachable natBeq 2 = false ∧
    s135.insertHitsUnreachable natBeq 3 = false :=
  benign_non_events natBeq s135 2 3 (by decide) (by decide)

/-- C7: the raw insert called with `replace = true` never produces
`InsertResult::Error`, so the `unreachable!()` arms of `HashSet::insert`
and `HashSetRef::insert` never execute. -/
theorem insert_error_arm_dead {K V : Type} (beq : K → K → Bool)
    (m : RawHashMap K V) (k : K) (v : V) (s : HashSet K) (q : K)
    (r : HashSetRef K) (q2 : K) :
    (m.insert beq k v true).2.isError = false ∧
    s.insertHitsUnreachable beq q = false ∧
    r.insertHitsUnreachable beq q2 = false := by
  refine ⟨?_, HashSet.insertHitsUnreachable_false beq s q,
    HashSetRef.ref_insertHitsUnreachable_false beq r q2⟩
  rcases h : m.entries.find? (fun e => beq k e.1) with _ | e <;>
    simp [RawHashMap.insert, h, InsertResult.isError]

/-- A freshly constructed set contains nothing. -/
theorem contains_with_capacity {K : Type} (beq : K → K → Bool) (c : Nat)
    (q : K) : (HashSet.with_capacity c : HashSet K).contains beq q = false :=
  rfl

/-- C6: `extend` reserves the full lower size hint `h` on an empty set and
`(h + 1) / 2` on a non-empty one, before inserting each element; and
`from_iter` pre-sizes a fresh set from the iterator's length hint
(`saturating_add(1)` of the post-`next` lower hint) and inserts every
element. -/
theorem bulk_construction_sizing {K : Type} (beq : K → K → Bool)
    (hequiv : IsEquivalence beq) (s : HashSet K) (it : SizedIter K) :
    ((s.extend beq it).raw.capacity =
      max s.raw.capacity
        (s.len + (if s.is_empty then it.hint else (it.hint + 1) / 2))) ∧
    (∀ q, (s.extend beq it).contains beq q =
      (s.contains beq q || it.items.any (fun x => beq q x))) ∧
    (it.items ≠ [] →
      (HashSet.from_iter beq it).raw.capacity = (it.hint - 1) + 1) ∧
    (∀ q, (HashSet.from_iter beq it).contains beq q =
      it.items.any (fun x => beq q x)) := by
  refine ⟨?_, ?_, ?_, ?_⟩
  · show ((s.reserve _).insertAll beq it.items).raw.capacity = _
    rw [HashSet.insertAll_capacity]
    rfl
  · intro q
    show ((s.reserve _).insertAll beq it.items).contains beq q = _
    rw [HashSet.contains_insertAll beq hequiv]
    rfl
  · intro hne
    rcases hitems : it.items with _ | ⟨key, rest⟩
    · exact absurd hitems hne
    · show (HashSet.from_iter beq it).raw.capacity = _
      rw [HashSet.from_iter, hitems]
      show ((((HashSet.with_capacity _).insert beq key).1).insertAll beq
        rest).raw.capacity = _
      rw [HashSet.insertAll_capacity, HashSet.insert_capacity]
      rfl
  · intro q
    rcases hitems : it.items with _ | ⟨key, rest⟩
    · rw [HashSet.from_iter, hitems]
      rfl
    · rw [HashSet.from_iter, hitems]
      show ((((HashSet.with_capacity _).insert beq key).1).insertAll beq
        rest).contains beq q = _
      rw [HashSet.contains_insertAll beq hequiv,
        HashSet.contains_insert beq hequiv, contains_with_capacity]
      simp [Bool.or_assoc]

/-- Witness for C6 at a concrete set and iterator. -/
theorem bulk_construction_sizing_witness :
    ((s135.extend natBeq it23).raw.capacity =
      max s135.raw.capacity
        (s135.len + (if s135.is_empty then it23.hint else (it23.hint + 1) / 2))) ∧
    ((s135.extend natBeq it23).contains natBeq 2 =
      (s135.contains natBeq 2 || it23.items.any (fun x => natBeq 2 x))) ∧
    ((HashSet.from_iter natBeq it23).raw.capacity = (it23.hint - 1) + 1) ∧
    ((HashSet.from_iter natBeq it23).contains natBeq 2 =
      it23.items.any (fun x => natBeq 2 x)) := by
  obtain ⟨h1, h2, h3, h4⟩ :=
    bulk_construction_sizing natBeq natBeq_equiv s135 it23
  exact ⟨h1, h2 2, h3 (by decide), h4 2⟩

/-- C10: `clone` builds a fresh set pre-sized to `self.len()` containing a
clone of every key of `self` and no others, and the clone is structurally
equal (`==`) to the original. -/
theorem clone_eq_self {K : Type} (beq : K → K → Bool) (cloneK : K → K)
    (hequiv : IsEquivalence beq) (s : HashSet K) (hwf : s.WF beq)
    (hclone : ∀ x, beq (cloneK x) x = true) :
    (s.clone beq cloneK).raw.capacity = s.len ∧
    (s.clone beq cloneK).len = s.len ∧
    (∀ q, (s.clone beq cloneK).contains beq q = s.contains beq q) ∧
    HashSet.eq (s.clone beq cloneK) s beq = true := by
  have hbridge : ∀ q k0, beq q (cloneK k0) = beq q k0 := by
    intro q k0
    rw [Bool.eq_iff_iff]
    constructor
    · intro h
      exact hequiv.trans q (cloneK k0) k0 h (hclone k0)
    · intro h
      exact hequiv.trans q k0 (cloneK k0) h (hequiv.symm (cloneK k0) k0 (hclone k0))
  have hcontains : ∀ q, (s.clone beq cloneK).contains beq q = s.contains beq q := by
    intro q
    show (((HashSet.with_capacity s.len).insertAll beq
      (s.iter.map cloneK)).contains beq q) = _
    rw [HashSet.contains_insertAll beq hequiv, contains_with_capacity,
      Bool.false_or, Bool.eq_iff_iff, List.any_eq_true,
      HashSet.contains_iff]
    constructor
    · rintro ⟨x, hx, hbx⟩
      obtain ⟨k0, hk0, rfl⟩ := List.mem_map.mp hx
      obtain ⟨e, he, rfl⟩ := List.mem_map.mp hk0
      rw [hbridge] at hbx
      exact ⟨e, he, hbx⟩
    · rintro ⟨e, he, hbe⟩
      refine ⟨cloneK e.1, List.mem_map.mpr ⟨e.1, ?_, rfl⟩, ?_⟩
      · exact List.mem_map.mpr ⟨e, he, rfl⟩
      · rw [hbridge]
        exact hbe
  have hlen : (s.clone beq cloneK).len = s.len := by
    have hpairkeys : (s.iter.map cloneK).Pairwise (fun a b => beq b a = false) := by
      have h1 : s.iter.Pairwise (fun a b => beq a b = false) :=
        List.Pairwise.map Prod.fst (fun _ _ h => h) hwf
      refine List.Pairwise.map cloneK ?_ h1
      intro a b hab
      cases hba : beq (cloneK b) (cloneK a)
      · rfl
      · have h2 : beq b (cloneK b) = true := hequiv.symm (cloneK b) b (hclone b)
        have h3 : beq b (cloneK a) = true := hequiv.trans b (cloneK b) (cloneK a) h2 hba
        have h4 : beq b a = true := hequiv.trans b (cloneK a) a h3 (hclone a)
        have h5 : beq a b = true := hequiv.symm b a h4
        rw [hab] at h5
        simp at h5
    have hentries : (s.clone beq cloneK).raw.entries =
        [] ++ (s.iter.map cloneK).map (fun k => (k, ())) :=
      HashSet.insertAll_entries_fresh beq (HashSet.with_capacity s.len)
        (fun x _ => contains_with_capacity beq s.len x) hpairkeys
    show (s.clone beq cloneK).raw.entries.length = s.len
    rw [hentries]
    simp [HashSet.len, RawHashMap.len, HashSet.iter, RawHashMap.iter]
  refine ⟨?_, hlen, hcontains, ?_⟩
  · show (((HashSet.with_capacity s.len).insertAll beq
      (s.iter.map cloneK)).raw.capacity) = s.len
    rw [HashSet.insertAll_capacity]
    rfl
  · show (if (s.clone beq cloneK).len != s.len then false
      else ((s.clone beq cloneK).iter).all fun key => (s.get beq key).isSome) = true
    rw [hlen]
    rw [if_neg (by simp)]
    rw [List.all_eq_true]
    intro key hkey
    have hkey2 : key ∈ (s.clone beq cloneK).raw.entries.map Prod.fst := hkey
    obtain ⟨e, he, rfl⟩ := List.mem_map.mp hkey2
    show s.contains beq e.1 = true
    rw [← hcontains e.1, HashSet.contains_iff]
    exact ⟨e, he, hequiv.refl e.1⟩

/-- Witness for C10 at a concrete set with an identity clone function. -/
theorem clone_eq_self_witness :
    (s135.clone natBeq (fun x => x)).raw.capacity = s135.len ∧
    (s135.clone natBeq (fun x => x)).len = s135.len ∧
    (s135.clone natBeq (fun x => x)).contains natBeq 1 =
      s135.contains natBeq 1 ∧
    HashSet.eq (s135.clone natBeq (fun x => x)) s135 natBeq = true := by
  obtain ⟨h1, h2, h3, h4⟩ :=
    clone_eq_self natBeq (fun x => x) natBeq_equiv s135 (by decide)
      (fun x => by simp [natBeq])
  exact ⟨h1, h2, h3 1, h4⟩

/-- Keys of a well-formed table are pairwise non-equivalent. -/
theorem keys_pairwise {K : Type} (beq : K → K → Bool) {s : HashSet K}
    (hwf : s.WF beq) :
    (s.raw.entries.map Prod.fst).Pairwise (fun a b => beq a b = false) :=
  List.Pairwise.map Prod.fst (fun _ _ h => h) hwf

/-- Non-equivalence is symmetric when `beq` is an equivalence. -/
theorem not_beq_symmetric {K : Type} {beq : K → K → Bool}
    (hequiv : IsEquivalence beq) :
    Symmetric (fun a b : K => beq a b = false) := by
  intro x y hxy
  cases hyx : beq y x
  · rfl
  · have h2 := hequiv.symm y x hyx
    rw [hxy] at h2
    simp at h2

/-- Equivalent members of a pairwise-non-equivalent list coincide. -/
theorem pairwise_key_inj {K : Type} {beq : K → K → Bool}
    (hequiv : IsEquivalence beq) {l : List K}
    (hl : l.Pairwise (fun a b => beq a b = false)) :
    ∀ a ∈ l, ∀ b ∈ l, beq a b = true → a = b := by
  intro a ha b hb hab
  by_contra hne
  have h1 := List.Pairwise.forall (not_beq_symmetric hequiv) hl ha hb hne
  rw [h1] at hab
  simp at hab

/-- A pairwise-non-equivalent list has no duplicates. -/
theorem pairwise_nodup {K : Type} {beq : K → K → Bool}
    (hrefl : ∀ a, beq a a = true) {l : List K}
    (hl : l.Pairwise (fun a b => beq a b = false)) : l.Nodup :=
  List.Pairwise.imp
    (fun {a b} h => by
      intro heq
      subst heq
      rw [hrefl a] at h
      simp at h) hl

/-- The chooser `pick` lands in the list and is equivalent to its
argument whenever an equivalent element exists. -/
theorem pick_spec {K : Type} {beq : K → K → Bool} {kt : List K} {a : K}
    (h : ∃ b ∈ kt, beq a b = true) :
    pick beq kt a ∈ kt ∧ beq a (pick beq kt a) = true := by
  rcases hf : kt.find? (fun b => beq a b) with _ | b
  · rw [List.find?_eq_none] at hf
    obtain ⟨b, hb, hab⟩ := h
    exact absurd hab (by simpa using hf b hb)
  · have hp : pick beq kt a = b := by simp [pick, hf]
    rw [hp]
    exact ⟨List.mem_of_find?_eq_some hf, by simpa using List.find?_some hf⟩

/-- If every member of `ks` has an equivalent member of `kt` and both lists
are pairwise non-equivalent, `ks` is no longer than `kt`. -/
theorem keys_length_le {K : Type} {beq : K → K → Bool}
    (hequiv : IsEquivalence beq) {ks kt : List K}
    (hks : ks.Pairwise (fun a b => beq a b = false))
    (hkt : kt.Pairwise (fun a b => beq a b = false))
    (hsub : ∀ a ∈ ks, ∃ b ∈ kt, beq a b = true) :
    ks.length ≤ kt.length := by
  classical
  rw [← List.toFinset_card_of_nodup (pairwise_nodup hequiv.refl hks),
    ← List.toFinset_card_of_nodup (pairwise_nodup hequiv.refl hkt)]
  apply Finset.card_le_card_of_injOn (pick beq kt)
  · intro a ha
    rw [List.mem_toFinset] at ha ⊢
    exact (pick_spec (hsub a ha)).1
  · intro a1 h1 a2 h2 hpp
    have h1m : a1 ∈ ks := by simpa using h1
    have h2m : a2 ∈ ks := by simpa using h2
    have hb1 : beq a1 (pick beq kt a1) = true := (pick_spec (hsub a1 h1m)).2
    have hb2 : beq (pick beq kt a2) a2 = true :=
      hequiv.symm a2 _ (pick_spec (hsub a2 h2m)).2
    rw [hpp] at hb1
    exact pairwise_key_inj hequiv hks a1 h1m a2 h2m
      (hequiv.trans a1 (pick beq kt a2) a2 hb1 hb2)

/-- Pigeonhole: with `kt` no longer than `ks`, the subset relation between
pairwise-non-equivalent key lists reverses. -/
theorem keys_surj {K : Type} {beq : K → K → Bool}
    (hequiv : IsEquivalence beq) {ks kt : List K}
    (hks : ks.Pairwise (fun a b => beq a b = false))
    (hkt : kt.Pairwise (fun a b => beq a b = false))
    (hlen : kt.length ≤ ks.length)
    (hsub : ∀ a ∈ ks, ∃ b ∈ kt, beq a b = true) :
    ∀ b ∈ kt, ∃ a ∈ ks, beq b a = true := by
  classical
  intro b hb
  have hf : ∀ (a : K) (ha : a ∈ ks.toFinset),
      (fun (a : K) (_ : a ∈ ks.toFinset) => pick beq kt a) a ha ∈ kt.toFinset := by
    intro a ha
    rw [List.mem_toFinset] at ha ⊢
    exact (pick_spec (hsub a ha)).1
  have hinj : ∀ (a1 a2 : K) (h1 : a1 ∈ ks.toFinset) (h2 : a2 ∈ ks.toFinset),
      (fun (a : K) (_ : a ∈ ks.toFinset) => pick beq kt a) a1 h1 =
        (fun (a : K) (_ : a ∈ ks.toFinset) => pick beq kt a) a2 h2 →
      a1 = a2 := by
    intro a1 a2 h1 h2 hpp
    have h1m : a1 ∈ ks := List.mem_toFinset.mp h1
    have h2m : a2 ∈ ks := List.mem_toFinset.mp h2
    have hb1 : beq a1 (pick beq kt a1) = true := (pick_spec (hsub a1 h1m)).2
    have hb2 : beq (pick beq kt a2) a2 = true :=
      hequiv.symm a2 _ (pick_spec (hsub a2 h2m)).2
    simp only [] at hpp
    rw [hpp] at hb1
    exact pairwise_key_inj hequiv hks a1 h1m a2 h2m
      (hequiv.trans a1 (pick beq kt a2) a2 hb1 hb2)
  have hcard : kt.toFinset.card ≤ ks.toFinset.card := by
    rw [List.toFinset_card_of_nodup (pairwise_nodup hequiv.refl hks),
      List.toFinset_card_of_nodup (pairwise_nodup hequiv.refl hkt)]
    exact hlen
  obtain ⟨a, ha, hba⟩ :=
    Finset.surj_on_of_inj_on_of_card_le
      (fun (a : K) (_ : a ∈ ks.toFinset) => pick beq kt a) hf hinj hcard
      b (List.mem_toFinset.mpr hb)
  have ham : a ∈ ks := List.mem_toFinset.mp ha
  have hpa : beq a (pick beq kt a) = true := (pick_spec (hsub a ham)).2
  rw [← hba] at hpa
  exact ⟨a, ham, hequiv.symm a b hpa⟩

/-- Membership restated over the key list. -/
theorem contains_iff_keys {K : Type} (beq : K → K → Bool) (s : HashSet K)
    (q : K) :
    s.contains beq q = true ↔
      ∃ b ∈ s.raw.entries.map Prod.fst, beq q b = true := by
  rw [HashSet.contains_iff]
  constructor
  · rintro ⟨x, hx, hbx⟩
    exact ⟨x.1, List.mem_map.mpr ⟨x, hx, rfl⟩, hbx⟩
  · rintro ⟨b, hb, hbb⟩
    obtain ⟨x, hx, rfl⟩ := List.mem_map.mp hb
    exact ⟨x, hx, hbb⟩

/-- C5: on well-formed states with the key relation an equivalence,
`PartialEq::eq` (length check plus one-sided containment of iterated keys)
returns `true` exactly when the two sets contain the same keys. -/
theorem eq_iff_same_keys {K : Type} (beq : K → K → Bool)
    (hequiv : IsEquivalence beq) (s t : HashSet K)
    (hs : s.WF beq) (ht : t.WF beq) :
    HashSet.eq s t beq = true ↔
      ∀ q, s.contains beq q = t.contains beq q := by
  have hkss := keys_pairwise beq hs
  have hktt := keys_pairwise beq ht
  constructor
  · intro he
    have hcond : (s.len != t.len) = false := by
      cases hc : (s.len != t.len)
      · rfl
      · unfold HashSet.eq at he
        rw [hc] at he
        simp at he
    have hlen : s.len = t.len := by simpa using hcond
    have hall : (s.iter).all (fun key => (t.get beq key).isSome) = true := by
      unfold HashSet.eq at he
      rw [hcond] at he
      simpa using he
    have hsub : ∀ a ∈ s.raw.entries.map Prod.fst,
        ∃ b ∈ t.raw.entries.map Prod.fst, beq a b = true := by
      intro a ha
      have ha2 : a ∈ s.iter := ha
      have h3 := List.all_eq_true.mp hall a ha2
      have h4 : t.contains beq a = true := h3
      exact (contains_iff_keys beq t a).mp h4
    have hlen2 : (t.raw.entries.map Prod.fst).length ≤
        (s.raw.entries.map Prod.fst).length := by
      simp only [List.length_map]
      show t.len ≤ s.len
      rw [hlen]
    have hsurj := keys_surj hequiv hkss hktt hlen2 hsub
    intro q
    rw [Bool.eq_iff_iff, contains_iff_keys, contains_iff_keys]
    constructor
    · rintro ⟨a, ha, hqa⟩
      obtain ⟨b, hb, hab⟩ := hsub a ha
      exact ⟨b, hb, hequiv.trans q a b hqa hab⟩
    · rintro ⟨b, hb, hqb⟩
      obtain ⟨a, ha, hba⟩ := hsurj b hb
      exact ⟨a, ha, hequiv.trans q b a hqb hba⟩
  · intro hsame
    have hsub : ∀ a ∈ s.raw.entries.map Prod.fst,
        ∃ b ∈ t.raw.entries.map Prod.fst, beq a b = true := by
      intro a ha
      refine (contains_iff_keys beq t a).mp ?_
      rw [← hsame a]
      exact (contains_iff_keys beq s a).mpr ⟨a, ha, hequiv.refl a⟩
    have hsub2 : ∀ b ∈ t.raw.entries.map Prod.fst,
        ∃ a ∈ s.raw.entries.map Prod.fst, beq b a = true := by
      intro b hb
      refine (contains_iff_keys beq s b).mp ?_
      rw [hsame b]
      exact (contains_iff_keys beq t b).mpr ⟨b, hb, hequiv.refl b⟩
    have hle1 := keys_length_le hequiv hkss hktt hsub
    have hle2 := keys_length_le hequiv hktt hkss hsub2
    simp only [List.length_map] at hle1 hle2
    have hlen : s.len = t.len := Nat.le_antisymm hle1 hle2
    unfold HashSet.eq
    rw [hlen, if_neg (by simp)]
    rw [List.all_eq_true]
    intro key hkey
    have hkey2 : key ∈ s.raw.entries.map Prod.fst := hkey
    obtain ⟨b, hb, hkb⟩ := hsub key hkey2
    show t.contains beq key = true
    exact (contains_iff_keys beq t key).mpr ⟨b, hb, hkb⟩

/-- Witness for C5: two concrete sets with equal keys in different order,
compared with `==` and then at the key 7. -/
theorem eq_iff_same_keys_witness :
    sA.contains natBeq 7 = sB.contains natBeq 7 :=
  (eq_iff_same_keys natBeq natBeq_equiv sA sB (by decide) (by decide)).mp
    (by decide) 7

/-- C9: `pin` and `pin_owned` return the same reference (both wrap `self`),
and every `HashSetRef` operation returns the same result as the
corresponding `HashSet` method on the underlying set. -/
theorem pinned_ref_equivalence {K : Type} (beq : K → K → Bool)
    (s : HashSet K) (q k : K) (f : K → Bool) (n : Nat) :
    s.pin = s.pin_owned ∧
    (s.pin).set = s ∧
    (s.pin).len = s.len ∧
    (s.pin).is_empty = s.is_empty ∧
    (s.pin).contains beq q = s.contains beq q ∧
    (s.pin).get beq q = s.get beq q ∧
    (s.pin).insert beq k = (((s.insert beq k).1).pin, (s.insert beq k).2) ∧
    (s.pin).remove beq q = (((s.remove beq q).1).pin, (s.remove beq q).2) ∧
    (s.pin).clear = (s.clear).pin ∧
    (s.pin).retain f = (s.retain f).pin ∧
    (s.pin).reserve n = (s.reserve n).pin ∧
    (s.pin).iter = s.iter := by
  refine ⟨rfl, rfl, rfl, rfl, rfl, rfl, ?_, ?_, rfl, rfl, rfl, rfl⟩
  · cases hres : s.raw.insert beq k () true with
    | mk m res =>
      cases res <;>
        simp [HashSetRef.insert, HashSet.insert, HashSet.pin, hres]
  · cases hres : s.raw.remove beq q with
    | mk m res =>
      cases res <;>
        simp [HashSetRef.remove, HashSet.remove, HashSet.pin, hres]

end Papaya
